import Mathlib

/-!
Verification of the `UnionFind<K>` disjoint-set data structure
(`src/unionfind.rs`).

The embedding models the scalar index type `K` by `Nat` (the source requires
an unsigned integer type; `usize`-sized quantities are unbounded here), the
`parent: Vec<K>` array by `List Nat` and the `rank: Vec<u8>` array by
`List Nat` (rank is at most `log2 n`, so the `u8` storage never saturates for
any structure realizable in memory; we therefore use exact arithmetic for the
increment `rank[xrepu] += 1`).

The loops in `find` and the recursion in `find_mut_recursive` terminate only
because the parent chains are acyclic; the embedding uses an explicit fuel
argument and the theorems prove that fuel `parent.length` always suffices on
well-formed structures.

Out-of-bounds panics are modelled by `Except UFError`; mutating operations
return the state at the point of the panic together with the error, so that
claims about "no mutation before the failure" are expressible.
-/

/-- The single error kind of the interface: an index `>= n` was supplied
(the Rust source panics via `assert!`). -/
inductive UFError where
  | indexOutOfRange
deriving DecidableEq

deriving instance DecidableEq for Except

/-- `UnionFind` from `src/unionfind.rs`: a parent-pointer table and a
parallel rank table. -/
structure UnionFind where
  parent : List Nat
  rank : List Nat
deriving DecidableEq

/-- Number of elements tracked by the structure (`self.parent.len()`). -/
def UnionFind.size (u : UnionFind) : Nat := u.parent.length

/-- Reading `parent[x]`; out-of-range reads (which are UB via
`get_unchecked` in the source and never happen on well-formed states)
default to `0`. -/
def parentOf (p : List Nat) (x : Nat) : Nat := p.getD x 0

/-- The trailing loop of `new`: starting from current index `i`, push
`count` further indices, each obtained from the previous by `+ 1`
(`i = i + num::Int::one()`). -/
def pushParents : Nat → Nat → List Nat
  | 0, _ => []
  | count + 1, i => (i + 1) :: pushParents count (i + 1)

/-- `UnionFind::new(n)`: `rank` is `n` zeros; `parent` is built by pushing
`0` first (the unrolled first iteration) and then `n - 1` successor
indices. -/
def UnionFind.new (n : Nat) : UnionFind :=
  ⟨if n = 0 then [] else 0 :: pushParents (n - 1) 0, List.replicate n 0⟩

/-- The trailing loop of `new` as executed at an index type of bit width
`w`: the increment `i = i + one()` is carried out modulo `2 ^ w`. -/
def pushParentsK (w : Nat) : Nat → Nat → List Nat
  | 0, _ => []
  | count + 1, i => ((i + 1) % 2 ^ w) :: pushParentsK w count ((i + 1) % 2 ^ w)

/-- The `parent` array built by `new(n)` at an index type of bit width `w`,
including the unrolled first iteration that avoids wraparound for
`n = 2 ^ w`. -/
def newParentK (w n : Nat) : List Nat :=
  if n = 0 then [] else 0 :: pushParentsK w (n - 1) 0

/-- The loop body of `find`: follow parent links; `fuel` bounds the number
of steps (the source loop is unbounded and relies on acyclicity). -/
def findAux (p : List Nat) : Nat → Nat → Nat
  | 0, x => x
  | fuel + 1, x =>
    let xparent := parentOf p x
    if xparent = x then x else findAux p fuel xparent

/-- `UnionFind::find`: bounds-checked (`assert!`) non-mutating lookup.
Takes `&self` in the source, hence returns no state. -/
def UnionFind.find (u : UnionFind) (x : Nat) : Except UFError Nat :=
  if x < u.parent.length then .ok (findAux u.parent u.parent.length x)
  else .error .indexOutOfRange

/-- `UnionFind::find_mut_recursive`: read `parent[x]`; if it is not `x`,
recursively resolve the representative of the parent (threading the mutated
array) and then write it into `parent[x]`.  `fuel` bounds the recursion
depth. -/
def find_mut_recursive (p : List Nat) : Nat → Nat → List Nat × Nat
  | 0, x => (p, x)
  | fuel + 1, x =>
    let xparent := parentOf p x
    if xparent = x then (p, x)
    else
      let res := find_mut_recursive p fuel xparent
      (res.fst.set x res.snd, res.snd)

/-- `UnionFind::find_mut`: bounds-checked compressing lookup.  On the
out-of-range panic the state is returned unchanged (the `assert!` precedes
any write). -/
def UnionFind.find_mut (u : UnionFind) (x : Nat) : UnionFind × Except UFError Nat :=
  if x < u.parent.length then
    let res := find_mut_recursive u.parent u.parent.length x
    (⟨res.fst, u.rank⟩, .ok res.snd)
  else (u, .error .indexOutOfRange)

/-- `UnionFind::union`: the `x == y` fast path precedes all bounds checks;
then `find_mut(x)`, `find_mut(y)` (each may panic — the state at the panic
point is returned with the error), then union by rank with the tie broken
towards the x-side representative. -/
def UnionFind.union (u : UnionFind) (x y : Nat) : UnionFind × Except UFError Bool :=
  if x = y then (u, .ok false)
  else
    match u.find_mut x with
    | (u1, .error e) => (u1, .error e)
    | (u1, .ok xrep) =>
      match u1.find_mut y with
      | (u2, .error e) => (u2, .error e)
      | (u2, .ok yrep) =>
        if xrep = yrep then (u2, .ok false)
        else
          let xrank := u2.rank.getD xrep 0
          let yrank := u2.rank.getD yrep 0
          if xrank < yrank then (⟨u2.parent.set xrep yrep, u2.rank⟩, .ok true)
          else if xrank > yrank then (⟨u2.parent.set yrep xrep, u2.rank⟩, .ok true)
          else (⟨u2.parent.set yrep xrep, u2.rank.set xrep (xrank + 1)⟩, .ok true)

/-- An operation of the public mutating/observing interface. -/
inductive Op where
  | find : Nat → Op
  | find_mut : Nat → Op
  | union : Nat → Nat → Op

/-- The state after one operation (`find` takes `&self` and leaves the
state unchanged). -/
def UnionFind.applyOp (u : UnionFind) : Op → UnionFind
  | .find _ => u
  | .find_mut x => (u.find_mut x).fst
  | .union x y => (u.union x y).fst

/-- The state after a sequence of operations. -/
def UnionFind.applyOps (u : UnionFind) : List Op → UnionFind
  | [] => u
  | o :: os => (u.applyOp o).applyOps os

/-- Run a list of `union` calls, returning the final state and how many of
the calls returned `true`. -/
def UnionFind.applyUnions (u : UnionFind) : List (Nat × Nat) → UnionFind × Nat
  | [] => (u, 0)
  | xy :: rest =>
    let step := u.union xy.fst xy.snd
    let rest' := step.fst.applyUnions rest
    (rest'.fst, (if step.snd = .ok true then 1 else 0) + rest'.snd)

/-- Iterate the parent map `k` times starting from `x`. -/
def iterParent (p : List Nat) : Nat → Nat → Nat
  | 0, x => x
  | k + 1, x => iterParent p k (parentOf p x)

/-- `x` is a representative: it stores its own index. -/
def isRoot (p : List Nat) (x : Nat) : Prop := parentOf p x = x

instance (p : List Nat) (x : Nat) : Decidable (isRoot p x) :=
  inferInstanceAs (Decidable (_ = _))

/-- Following parent links from `x` reaches the representative `r`. -/
def Reaches (p : List Nat) (x r : Nat) : Prop :=
  (∃ k, iterParent p k x = r) ∧ isRoot p r

/-- `i` and `j` lie in the same equivalence class: their chains terminate at
a common representative. -/
def sameClass (p : List Nat) (i j : Nat) : Prop :=
  ∃ z, Reaches p i z ∧ Reaches p j z

/-- All stored parent indices are in range. -/
def inRange (p : List Nat) : Prop :=
  ∀ i, i < p.length → parentOf p i < p.length

/-- Well-formed states: parallel arrays of equal length, in-range parent
pointers, and every element's chain terminates at a representative (the
documented invariants of the structure). -/
def WF (u : UnionFind) : Prop :=
  u.rank.length = u.parent.length ∧ inRange u.parent ∧
    ∀ i, i < u.parent.length → ∃ r, Reaches u.parent i r

/-- The number of distinct representatives in a parent array: indices `i`
with `parent[i] == i`. -/
def countRepsP (p : List Nat) : Nat :=
  ((Finset.range p.length).filter fun i => parentOf p i = i).card

/-- The number of distinct representatives: indices `i` with
`parent[i] == i`. -/
def countReps (u : UnionFind) : Nat := countRepsP u.parent

lemma getD_set_self : ∀ (l : List Nat) (i v : Nat), i < l.length →
    (l.set i v).getD i 0 = v := by
  intro l
  induction l with
  | nil => intro i v h; simp at h
  | cons a t ih =>
    intro i v h
    cases i with
    | zero => simp [List.set, List.getD]
    | succ j =>
      simp only [List.set, List.getD] at *
      exact ih j v (by simpa using h)

lemma getD_set_ne : ∀ (l : List Nat) (i j v : Nat), i ≠ j →
    (l.set i v).getD j 0 = l.getD j 0 := by
  intro l
  induction l with
  | nil => intro i j v _; simp [List.set]
  | cons a t ih =>
    intro i j v hij
    cases i with
    | zero =>
      cases j with
      | zero => exact absurd rfl hij
      | succ j' => simp [List.set, List.getD]
    | succ i' =>
      cases j with
      | zero => simp [List.set, List.getD]
      | succ j' =>
        simp only [List.set, List.getD] at *
        exact ih i' j' v (fun h => hij (by rw [h]))

lemma getD_eq_default : ∀ (l : List Nat) (i : Nat), l.length ≤ i →
    l.getD i 0 = 0 := by
  intro l
  induction l with
  | nil => intro i _; simp [List.getD]
  | cons a t ih =>
    intro i h
    cases i with
    | zero => simp at h
    | succ j =>
      simp only [List.getD] at *
      exact ih j (by simpa using h)

lemma parentOf_set_self (p : List Nat) (a v : Nat) (ha : a < p.length) :
    parentOf (p.set a v) a = v := getD_set_self p a v ha

lemma parentOf_set_ne (p : List Nat) (a v i : Nat) (h : a ≠ i) :
    parentOf (p.set a v) i = parentOf p i := getD_set_ne p a i v h

lemma iterParent_succ_out (p : List Nat) :
    ∀ (k x : Nat), iterParent p (k + 1) x = parentOf p (iterParent p k x) := by
  intro k
  induction k with
  | zero => intro x; rfl
  | succ k ih => intro x; exact ih (parentOf p x)

lemma iterParent_add (p : List Nat) :
    ∀ (a b x : Nat), iterParent p (a + b) x = iterParent p b (iterParent p a x) := by
  intro a
  induction a with
  | zero => intro b x; simp [iterParent]
  | succ a ih =>
    intro b x
    have h1 : a + 1 + b = (a + b) + 1 := by omega
    rw [h1]
    show iterParent p (a + b) (parentOf p x) = _
    exact ih b (parentOf p x)

lemma root_iter (p : List Nat) (r : Nat) (hr : isRoot p r) :
    ∀ k, iterParent p k r = r := by
  intro k
  induction k with
  | zero => rfl
  | succ k ih => rw [iterParent_succ_out, ih, hr]

lemma reaches_self (p : List Nat) (x : Nat) (h : isRoot p x) : Reaches p x x :=
  ⟨⟨0, rfl⟩, h⟩

lemma reaches_parent (p : List Nat) (x r : Nat)
    (h : Reaches p (parentOf p x) r) : Reaches p x r := by
  obtain ⟨⟨k, hk⟩, hr⟩ := h
  exact ⟨⟨k + 1, by show iterParent p k (parentOf p x) = r; exact hk⟩, hr⟩

lemma reaches_unique (p : List Nat) (x r r' : Nat)
    (h1 : Reaches p x r) (h2 : Reaches p x r') : r = r' := by
  obtain ⟨⟨k, hk⟩, hr⟩ := h1
  obtain ⟨⟨k', hk'⟩, hr'⟩ := h2
  rcases Nat.le_total k k' with hle | hle
  · have : iterParent p k' x = iterParent p (k' - k) (iterParent p k x) := by
      rw [← iterParent_add]; congr 1; omega
    rw [hk', hk, root_iter p r hr] at this
    exact this.symm
  · have : iterParent p k x = iterParent p (k - k') (iterParent p k' x) := by
      rw [← iterParent_add]; congr 1; omega
    rw [hk, hk', root_iter p r' hr'] at this
    exact this

lemma iter_lt (p : List Nat) (hin : inRange p) :
    ∀ (k x : Nat), x < p.length → iterParent p k x < p.length := by
  intro k
  induction k with
  | zero => intro x hx; exact hx
  | succ k ih => intro x hx; exact ih (parentOf p x) (hin x hx)

lemma iterParent_congr (p q : List Nat)
    (h : ∀ w, parentOf p w = parentOf q w) :
    ∀ (k x : Nat), iterParent p k x = iterParent q k x := by
  intro k
  induction k with
  | zero => intro x; rfl
  | succ k ih =>
    intro x
    show iterParent p k (parentOf p x) = iterParent q k (parentOf q x)
    rw [h, ih]

lemma reaches_congr (p q : List Nat)
    (h : ∀ w, parentOf p w = parentOf q w) (i z : Nat) :
    Reaches p i z ↔ Reaches q i z := by
  unfold Reaches isRoot
  rw [h z]
  constructor
  · rintro ⟨⟨k, hk⟩, hz⟩; exact ⟨⟨k, by rw [← iterParent_congr p q h, hk]⟩, hz⟩
  · rintro ⟨⟨k, hk⟩, hz⟩; exact ⟨⟨k, by rw [iterParent_congr p q h, hk]⟩, hz⟩

lemma exists_least_root (p : List Nat) (x : Nat)
    (h : ∃ k, isRoot p (iterParent p k x)) :
    ∃ m, isRoot p (iterParent p m x) ∧
      ∀ j, j < m → ¬ isRoot p (iterParent p j x) :=
  ⟨Nat.find h, Nat.find_spec h, fun j hj => Nat.find_min h hj⟩

lemma reaches_iter_root (p : List Nat) (x r : Nat) (h : Reaches p x r) :
    ∃ k, isRoot p (iterParent p k x) := by
  obtain ⟨⟨k, hk⟩, hr⟩ := h
  exact ⟨k, by rw [hk]; exact hr⟩

lemma reaches_of_least (p : List Nat) (x m : Nat)
    (hroot : isRoot p (iterParent p m x)) :
    Reaches p x (iterParent p m x) := ⟨⟨m, rfl⟩, hroot⟩

lemma iter_distinct (p : List Nat) (x m : Nat)
    (hroot : isRoot p (iterParent p m x))
    (hmin : ∀ j, j < m → ¬ isRoot p (iterParent p j x)) :
    ∀ a b, a < b → b ≤ m → iterParent p a x ≠ iterParent p b x := by
  intro a b hab hbm heq
  have hiter : iterParent p (a + (m - b)) x = iterParent p m x := by
    rw [iterParent_add, heq, ← iterParent_add]
    congr 1
    omega
  have habs : isRoot p (iterParent p (a + (m - b)) x) := by
    rw [hiter]; exact hroot
  exact hmin (a + (m - b)) (by omega) habs

lemma least_lt_length (p : List Nat) (hin : inRange p) (x m : Nat)
    (hx : x < p.length)
    (hroot : isRoot p (iterParent p m x))
    (hmin : ∀ j, j < m → ¬ isRoot p (iterParent p j x)) :
    m < p.length := by
  have hcard : (Finset.range (m + 1)).card ≤ (Finset.range p.length).card := by
    apply Finset.card_le_card_of_injOn (fun j => iterParent p j x)
    · intro a _
      exact Finset.mem_range.mpr (iter_lt p hin a x hx)
    · intro a ha b hb heq
      simp only [Finset.coe_range, Set.mem_Iio] at ha hb
      rcases Nat.lt_trichotomy a b with h | h | h
      · exact absurd heq (iter_distinct p x m hroot hmin a b h (by omega))
      · exact h
      · exact absurd heq.symm (iter_distinct p x m hroot hmin b a h (by omega))
  simpa using hcard

lemma findAux_spec (p : List Nat) :
    ∀ (fuel x m : Nat), isRoot p (iterParent p m x) →
      (∀ j, j < m → ¬ isRoot p (iterParent p j x)) →
      m ≤ fuel → findAux p fuel x = iterParent p m x := by
  intro fuel
  induction fuel with
  | zero =>
    intro x m hroot _ hm
    have : m = 0 := by omega
    subst this
    rfl
  | succ fuel ih =>
    intro x m hroot hmin hm
    show (if parentOf p x = x then x else findAux p fuel (parentOf p x)) = _
    by_cases hx : parentOf p x = x
    · rw [if_pos hx]
      have hm0 : m = 0 := by
        by_contra hne
        exact hmin 0 (by omega) hx
      subst hm0
      rfl
    · rw [if_neg hx]
      have hm0 : m ≠ 0 := by
        intro h0
        rw [h0] at hroot
        exact hx hroot
      rcases Nat.exists_eq_succ_of_ne_zero hm0 with ⟨m', rfl⟩
      have hroot' : isRoot p (iterParent p m' (parentOf p x)) := hroot
      have hmin' : ∀ j, j < m' → ¬ isRoot p (iterParent p j (parentOf p x)) := by
        intro j hj
        exact hmin (j + 1) (by omega)
      exact ih (parentOf p x) m' hroot' hmin' (by omega)

lemma reaches_set_mpr (p : List Nat) (a r : Nat) (ha : a < p.length)
    (har : Reaches p a r) (hnr : ¬ isRoot p a) :
    ∀ (k i z : Nat), iterParent p k i = z → isRoot p z →
      Reaches (p.set a r) i z := by
  have hra : r ≠ a := by
    intro h
    rw [h] at har
    exact hnr har.2
  have hrootr : isRoot (p.set a r) r := by
    unfold isRoot
    rw [parentOf_set_ne p a r r (fun h => hra h.symm)]
    exact har.2
  intro k
  induction k with
  | zero =>
    intro i z hiter hz
    have hzi : i = z := hiter
    rw [← hzi] at hz ⊢
    by_cases hia : i = a
    · rw [hia] at hz
      exact absurd hz hnr
    · refine reaches_self _ i ?_
      unfold isRoot
      rw [parentOf_set_ne p a r i (fun h => hia h.symm)]
      exact hz
  | succ k ih =>
    intro i z hiter hz
    by_cases hia : i = a
    · rw [hia] at hiter ⊢
      have hz' : z = r :=
        reaches_unique p a z r ⟨⟨k + 1, hiter⟩, hz⟩ har
      rw [hz']
      refine ⟨⟨1, ?_⟩, hrootr⟩
      show parentOf (p.set a r) a = r
      exact parentOf_set_self p a r ha
    · have hstep : iterParent p k (parentOf p i) = z := hiter
      have hrec := ih (parentOf p i) z hstep hz
      apply reaches_parent
      rw [parentOf_set_ne p a r i (fun h => hia h.symm)]
      exact hrec

lemma reaches_set_mp (p : List Nat) (a r : Nat) (ha : a < p.length)
    (har : Reaches p a r) (hnr : ¬ isRoot p a) :
    ∀ (k i z : Nat), iterParent (p.set a r) k i = z → isRoot (p.set a r) z →
      Reaches p i z := by
  have hra : r ≠ a := by
    intro h
    rw [h] at har
    exact hnr har.2
  have hrootr : isRoot (p.set a r) r := by
    unfold isRoot
    rw [parentOf_set_ne p a r r (fun h => hra h.symm)]
    exact har.2
  intro k
  induction k with
  | zero =>
    intro i z hiter hz
    have hzi : i = z := hiter
    rw [← hzi] at hz ⊢
    by_cases hia : i = a
    · unfold isRoot at hz
      rw [hia, parentOf_set_self p a r ha] at hz
      rw [hia]
      exact absurd hz hra
    · refine reaches_self p i ?_
      unfold isRoot at hz ⊢
      rw [parentOf_set_ne p a r i (fun h => hia h.symm)] at hz
      exact hz
  | succ k ih =>
    intro i z hiter hz
    by_cases hia : i = a
    · rw [hia] at hiter ⊢
      have h1 : iterParent (p.set a r) k (parentOf (p.set a r) a) = z := hiter
      rw [parentOf_set_self p a r ha] at h1
      rw [root_iter (p.set a r) r hrootr k] at h1
      rw [← h1]
      exact har
    · have h1 : iterParent (p.set a r) k (parentOf (p.set a r) i) = z := hiter
      rw [parentOf_set_ne p a r i (fun h => hia h.symm)] at h1
      have hrec := ih (parentOf p i) z h1 hz
      exact reaches_parent p i z hrec

lemma reaches_set_iff (p : List Nat) (a r : Nat) (ha : a < p.length)
    (har : Reaches p a r) (i z : Nat) :
    Reaches (p.set a r) i z ↔ Reaches p i z := by
  by_cases hnr : isRoot p a
  · have hr : r = a := (reaches_unique p a a r (reaches_self p a hnr) har).symm
    apply reaches_congr
    intro w
    by_cases hw : w = a
    · rw [hw, parentOf_set_self p a r ha, hr]
      exact hnr.symm
    · exact parentOf_set_ne p a r w (fun h => hw h.symm)
  · constructor
    · rintro ⟨⟨k, hk⟩, hz⟩
      exact reaches_set_mp p a r ha har hnr k i z hk hz
    · rintro ⟨⟨k, hk⟩, hz⟩
      exact reaches_set_mpr p a r ha har hnr k i z hk hz

lemma isRoot_set_iff (p : List Nat) (a b : Nat) (ha : a < p.length)
    (hb : b ≠ a) (w : Nat) :
    isRoot (p.set a b) w ↔ (isRoot p w ∧ w ≠ a) := by
  by_cases hw : w = a
  · rw [hw]
    unfold isRoot
    rw [parentOf_set_self p a b ha]
    constructor
    · intro h
      exact absurd h hb
    · rintro ⟨_, h⟩
      exact absurd rfl h
  · unfold isRoot
    rw [parentOf_set_ne p a b w (fun h => hw h.symm)]
    constructor
    · intro h
      exact ⟨h, hw⟩
    · rintro ⟨h, _⟩
      exact h

lemma reaches_link_mp (p : List Nat) (a b : Nat) (ha : a < p.length)
    (hra : isRoot p a) (hrb : isRoot p b) (hab : b ≠ a) :
    ∀ (k i z : Nat), iterParent (p.set a b) k i = z → isRoot (p.set a b) z →
      ((Reaches p i z ∧ z ≠ a) ∨ (Reaches p i a ∧ z = b)) := by
  have hrootb : isRoot (p.set a b) b := by
    rw [isRoot_set_iff p a b ha hab]
    exact ⟨hrb, hab⟩
  intro k
  induction k with
  | zero =>
    intro i z hiter hz
    have hzi : i = z := hiter
    rw [isRoot_set_iff p a b ha hab] at hz
    rw [← hzi] at hz ⊢
    exact Or.inl ⟨reaches_self p i hz.1, hz.2⟩
  | succ k ih =>
    intro i z hiter hz
    by_cases hia : i = a
    · rw [hia] at hiter ⊢
      have h1 : iterParent (p.set a b) k (parentOf (p.set a b) a) = z := hiter
      rw [parentOf_set_self p a b ha] at h1
      rw [root_iter (p.set a b) b hrootb k] at h1
      exact Or.inr ⟨reaches_self p a hra, h1.symm⟩
    · have h1 : iterParent (p.set a b) k (parentOf (p.set a b) i) = z := hiter
      rw [parentOf_set_ne p a b i (fun h => hia h.symm)] at h1
      rcases ih (parentOf p i) z h1 hz with ⟨hre, hza⟩ | ⟨hre, hzb⟩
      · exact Or.inl ⟨reaches_parent p i z hre, hza⟩
      · exact Or.inr ⟨reaches_parent p i a hre, hzb⟩

lemma reaches_link_mpr_left (p : List Nat) (a b : Nat) (ha : a < p.length)
    (hra : isRoot p a) (hab : b ≠ a) :
    ∀ (k i z : Nat), iterParent p k i = z → isRoot p z → z ≠ a →
      Reaches (p.set a b) i z := by
  intro k
  induction k with
  | zero =>
    intro i z hiter hz hza
    have hzi : i = z := hiter
    rw [← hzi] at hz hza ⊢
    refine reaches_self _ i ?_
    rw [isRoot_set_iff p a b ha hab]
    exact ⟨hz, hza⟩
  | succ k ih =>
    intro i z hiter hz hza
    by_cases hroot : isRoot p i
    · have hzi : z = i := by
        rw [iterParent_succ_out, root_iter p i hroot, hroot] at hiter
        exact hiter.symm
      rw [hzi] at hza ⊢
      refine reaches_self _ i ?_
      rw [isRoot_set_iff p a b ha hab]
      exact ⟨hroot, hza⟩
    · have hia : i ≠ a := by
        intro h
        rw [h] at hroot
        exact hroot hra
      have h1 : iterParent p k (parentOf p i) = z := hiter
      have hrec := ih (parentOf p i) z h1 hz hza
      apply reaches_parent
      rw [parentOf_set_ne p a b i (fun h => hia h.symm)]
      exact hrec

lemma reaches_link_mpr_right (p : List Nat) (a b : Nat) (ha : a < p.length)
    (hrb : isRoot p b) (hab : b ≠ a) :
    ∀ (k i : Nat), iterParent p k i = a →
      Reaches (p.set a b) i b := by
  have hrootb : isRoot (p.set a b) b := by
    rw [isRoot_set_iff p a b ha hab]
    exact ⟨hrb, hab⟩
  intro k
  induction k with
  | zero =>
    intro i hiter
    have hia : i = a := hiter
    rw [hia]
    refine ⟨⟨1, ?_⟩, hrootb⟩
    show parentOf (p.set a b) a = b
    exact parentOf_set_self p a b ha
  | succ k ih =>
    intro i hiter
    by_cases hia : i = a
    · rw [hia]
      refine ⟨⟨1, ?_⟩, hrootb⟩
      show parentOf (p.set a b) a = b
      exact parentOf_set_self p a b ha
    · have h1 : iterParent p k (parentOf p i) = a := hiter
      have hrec := ih (parentOf p i) h1
      apply reaches_parent
      rw [parentOf_set_ne p a b i (fun h => hia h.symm)]
      exact hrec

lemma reaches_link_iff (p : List Nat) (a b : Nat) (ha : a < p.length)
    (hra : isRoot p a) (hrb : isRoot p b) (hab : b ≠ a) (i z : Nat) :
    Reaches (p.set a b) i z ↔
      ((Reaches p i z ∧ z ≠ a) ∨ (Reaches p i a ∧ z = b)) := by
  constructor
  · rintro ⟨⟨k, hk⟩, hz⟩
    exact reaches_link_mp p a b ha hra hrb hab k i z hk hz
  · rintro (⟨⟨⟨k, hk⟩, hz⟩, hza⟩ | ⟨⟨⟨k, hk⟩, _⟩, hzb⟩)
    · exact reaches_link_mpr_left p a b ha hra hab k i z hk hz hza
    · rw [hzb]
      exact reaches_link_mpr_right p a b ha hrb hab k i hk


lemma find_mut_recursive_spec (p : List Nat) (hin : inRange p) :
    ∀ (fuel x m : Nat), x < p.length →
      isRoot p (iterParent p m x) →
      (∀ j, j < m → ¬ isRoot p (iterParent p j x)) →
      m ≤ fuel →
      (find_mut_recursive p fuel x).snd = iterParent p m x ∧
      (find_mut_recursive p fuel x).fst.length = p.length ∧
      (∀ i, (∀ j, j < m → iterParent p j x ≠ i) →
        parentOf (find_mut_recursive p fuel x).fst i = parentOf p i) ∧
      (∀ j, j < m →
        parentOf (find_mut_recursive p fuel x).fst (iterParent p j x) =
          iterParent p m x) ∧
      (∀ i z, Reaches (find_mut_recursive p fuel x).fst i z ↔ Reaches p i z) := by
  intro fuel
  induction fuel with
  | zero =>
    intro x m hx hroot hmin hm
    have hm0 : m = 0 := by omega
    rw [hm0]
    refine ⟨rfl, rfl, fun i _ => rfl, fun j hj => absurd hj (by omega),
      fun i z => Iff.rfl⟩
  | succ fuel ih =>
    intro x m hx hroot hmin hm
    have hunf : find_mut_recursive p (fuel + 1) x =
        if parentOf p x = x then (p, x)
        else ((find_mut_recursive p fuel (parentOf p x)).fst.set x
                (find_mut_recursive p fuel (parentOf p x)).snd,
              (find_mut_recursive p fuel (parentOf p x)).snd) := rfl
    by_cases hpx : parentOf p x = x
    · rw [hunf, if_pos hpx]
      have hm0 : m = 0 := by
        by_contra hne
        exact hmin 0 (by omega) hpx
      rw [hm0]
      exact ⟨rfl, rfl, fun i _ => rfl, fun j hj => absurd hj (by omega),
        fun i z => Iff.rfl⟩
    · rw [hunf, if_neg hpx]
      have hm0 : m ≠ 0 := by
        intro h0
        rw [h0] at hroot
        exact hpx hroot
      rcases Nat.exists_eq_succ_of_ne_zero hm0 with ⟨m', rfl⟩
      have hxp_lt : parentOf p x < p.length := hin x hx
      have hroot' : isRoot p (iterParent p m' (parentOf p x)) := hroot
      have hmin' : ∀ j, j < m' → ¬ isRoot p (iterParent p j (parentOf p x)) :=
        fun j hj => hmin (j + 1) (by omega)
      obtain ⟨ih1, ih2, ih3, ih4, ih5⟩ :=
        ih (parentOf p x) m' hxp_lt hroot' hmin' (by omega)
      have hdist := iter_distinct p x (m' + 1) hroot hmin
      have hoffpath : ∀ j, j < m' → iterParent p j (parentOf p x) ≠ x := by
        intro j hj heq
        exact hdist 0 (j + 1) (by omega) (by omega) heq.symm
      have hqx : parentOf (find_mut_recursive p fuel (parentOf p x)).fst x =
          parentOf p x := ih3 x hoffpath
      have hreach_px : Reaches p (parentOf p x)
          (find_mut_recursive p fuel (parentOf p x)).snd := by
        rw [ih1]
        exact reaches_of_least p (parentOf p x) m' hroot'
      have hQreach_px : Reaches (find_mut_recursive p fuel (parentOf p x)).fst
          (parentOf p x) (find_mut_recursive p fuel (parentOf p x)).snd :=
        (ih5 _ _).mpr hreach_px
      have hQreach_x : Reaches (find_mut_recursive p fuel (parentOf p x)).fst
          x (find_mut_recursive p fuel (parentOf p x)).snd := by
        apply reaches_parent
        rw [hqx]
        exact hQreach_px
      have hxlen_q : x < (find_mut_recursive p fuel (parentOf p x)).fst.length := by
        rw [ih2]
        exact hx
      refine ⟨?_, ?_, ?_, ?_, ?_⟩
      · exact ih1
      · rw [List.length_set]
        exact ih2
      · intro i hi
        have hix : x ≠ i := by
          have := hi 0 (by omega)
          exact this
        rw [parentOf_set_ne _ x _ i hix]
        refine Eq.trans (ih3 i ?_) rfl
        intro j hj
        exact hi (j + 1) (by omega)
      · intro j hj
        cases j with
        | zero =>
          show parentOf _ x = _
          rw [parentOf_set_self _ x _ hxlen_q]
          exact ih1
        | succ j' =>
          have hj' : j' < m' := by omega
          have hyx : x ≠ iterParent p j' (parentOf p x) :=
            fun h => (hoffpath j' hj') h.symm
          show parentOf _ (iterParent p j' (parentOf p x)) = _
          rw [parentOf_set_ne _ x _ _ hyx]
          exact ih4 j' hj'
      · intro i z
        exact Iff.trans
          (reaches_set_iff (find_mut_recursive p fuel (parentOf p x)).fst x
            (find_mut_recursive p fuel (parentOf p x)).snd hxlen_q hQreach_x i z)
          (ih5 i z)

lemma find_mut_spec (u : UnionFind) (hwf : WF u) (x : Nat)
    (hx : x < u.parent.length) :
    ∃ u' r, u.find_mut x = (u', .ok r) ∧
      u'.parent.length = u.parent.length ∧
      u'.rank = u.rank ∧
      Reaches u.parent x r ∧
      r < u.parent.length ∧
      parentOf u'.parent x = r ∧
      (∀ k, iterParent u.parent k x ≠ r →
        parentOf u'.parent (iterParent u.parent k x) = r) ∧
      (∀ i z, Reaches u'.parent i z ↔ Reaches u.parent i z) ∧
      (∀ i, isRoot u'.parent i ↔ isRoot u.parent i) ∧
      WF u' := by
  obtain ⟨hrk, hin, hrooted⟩ := hwf
  obtain ⟨r0, hr0⟩ := hrooted x hx
  obtain ⟨m, hroot, hmin⟩ :=
    exists_least_root u.parent x (reaches_iter_root u.parent x r0 hr0)
  have hmlt : m < u.parent.length :=
    least_lt_length u.parent hin x m hx hroot hmin
  obtain ⟨sp1, sp2, sp3, sp4, sp5⟩ :=
    find_mut_recursive_spec u.parent hin u.parent.length x m hx hroot hmin
      (by omega)
  have hdist := iter_distinct u.parent x m hroot hmin
  have hunf : u.find_mut x =
      (⟨(find_mut_recursive u.parent u.parent.length x).fst, u.rank⟩,
        .ok (find_mut_recursive u.parent u.parent.length x).snd) := by
    unfold UnionFind.find_mut
    rw [if_pos hx]
  refine ⟨⟨(find_mut_recursive u.parent u.parent.length x).fst, u.rank⟩,
    (find_mut_recursive u.parent u.parent.length x).snd, hunf, sp2, rfl,
    ?_, ?_, ?_, ?_, sp5, ?_, ?_⟩
  · rw [sp1]
    exact reaches_of_least u.parent x m hroot
  · rw [sp1]
    exact iter_lt u.parent hin m x hx
  · cases Nat.eq_zero_or_pos m with
    | inl hm0 =>
      have hux : parentOf (find_mut_recursive u.parent u.parent.length x).fst x =
          parentOf u.parent x := sp3 x (by omega)
      rw [hm0] at hroot
      rw [hux, sp1, hm0]
      exact hroot
    | inr hmpos =>
      have := sp4 0 hmpos
      rw [sp1]
      exact this
  · intro k hk
    have hklt : k < m := by
      by_contra hge
      apply hk
      rw [sp1]
      have : iterParent u.parent k x =
          iterParent u.parent (k - m) (iterParent u.parent m x) := by
        rw [← iterParent_add]
        congr 1
        omega
      rw [this, root_iter u.parent _ hroot]
    rw [sp1]
    exact sp4 k hklt
  · intro i
    by_cases hpath : ∃ j, j < m ∧ iterParent u.parent j x = i
    · obtain ⟨j, hj, hji⟩ := hpath
      have h1 : parentOf (find_mut_recursive u.parent u.parent.length x).fst i =
          iterParent u.parent m x := by
        rw [← hji]
        exact sp4 j hj
      have h2 : ¬ isRoot u.parent i := by
        rw [← hji]
        exact hmin j hj
      have h3 : i ≠ iterParent u.parent m x := by
        rw [← hji]
        exact hdist j m hj (by omega)
      constructor
      · intro h
        unfold isRoot at h
        rw [h1] at h
        exact absurd h.symm h3
      · intro h
        exact absurd h h2
    · push_neg at hpath
      have h1 : parentOf (find_mut_recursive u.parent u.parent.length x).fst i =
          parentOf u.parent i := sp3 i hpath
      unfold isRoot
      rw [h1]
  · refine ⟨?_, ?_, ?_⟩
    · show u.rank.length = _
      rw [hrk, sp2]
    · intro i hilen
      show parentOf _ i < _
      rw [sp2] at hilen ⊢
      by_cases hpath : ∃ j, j < m ∧ iterParent u.parent j x = i
      · obtain ⟨j, hj, hji⟩ := hpath
        rw [← hji, sp4 j hj]
        exact iter_lt u.parent hin m x hx
      · push_neg at hpath
        rw [sp3 i hpath]
        exact hin i hilen
    · intro i hilen
      rw [sp2] at hilen
      obtain ⟨z, hz⟩ := hrooted i hilen
      exact ⟨z, (sp5 i z).mpr hz⟩

lemma find_spec (u : UnionFind) (hwf : WF u) (x : Nat)
    (hx : x < u.parent.length) :
    ∃ r, u.find x = .ok r ∧ Reaches u.parent x r := by
  obtain ⟨hrk, hin, hrooted⟩ := hwf
  obtain ⟨r0, hr0⟩ := hrooted x hx
  obtain ⟨m, hroot, hmin⟩ :=
    exists_least_root u.parent x (reaches_iter_root u.parent x r0 hr0)
  have hmlt : m < u.parent.length :=
    least_lt_length u.parent hin x m hx hroot hmin
  refine ⟨iterParent u.parent m x, ?_, reaches_of_least u.parent x m hroot⟩
  unfold UnionFind.find
  rw [if_pos hx, findAux_spec u.parent u.parent.length x m hroot hmin (by omega)]

lemma find_eq_iff (u : UnionFind) (hwf : WF u) (i j : Nat)
    (hi : i < u.parent.length) (hj : j < u.parent.length) :
    u.find i = u.find j ↔ sameClass u.parent i j := by
  obtain ⟨ri, hfi, hri⟩ := find_spec u hwf i hi
  obtain ⟨rj, hfj, hrj⟩ := find_spec u hwf j hj
  rw [hfi, hfj]
  constructor
  · intro h
    have hok : ri = rj := by
      injection h
    exact ⟨rj, hok ▸ hri, hrj⟩
  · rintro ⟨z, hzi, hzj⟩
    have h1 : ri = z := reaches_unique u.parent i ri z hri hzi
    have h2 : rj = z := reaches_unique u.parent j rj z hrj hzj
    rw [h1, h2]

lemma countRepsP_congr (p q : List Nat) (hlen : p.length = q.length)
    (h : ∀ i, isRoot p i ↔ isRoot q i) : countRepsP p = countRepsP q := by
  unfold countRepsP
  rw [hlen]
  congr 1
  ext w
  rw [Finset.mem_filter, Finset.mem_filter]
  constructor
  · rintro ⟨hw, hr⟩
    exact ⟨hw, (h w).mp hr⟩
  · rintro ⟨hw, hr⟩
    exact ⟨hw, (h w).mpr hr⟩

lemma countRepsP_set (p : List Nat) (a b : Nat) (ha : a < p.length)
    (hra : isRoot p a) (hb : b ≠ a) :
    countRepsP (p.set a b) + 1 = countRepsP p := by
  unfold countRepsP
  rw [List.length_set]
  have hmem : a ∈ (Finset.range p.length).filter (fun i => parentOf p i = i) := by
    rw [Finset.mem_filter]
    exact ⟨Finset.mem_range.mpr ha, hra⟩
  have hfe : (Finset.range p.length).filter (fun i => parentOf (p.set a b) i = i) =
      ((Finset.range p.length).filter (fun i => parentOf p i = i)).erase a := by
    ext w
    rw [Finset.mem_erase, Finset.mem_filter, Finset.mem_filter]
    constructor
    · rintro ⟨hw, hroot⟩
      have h2 := (isRoot_set_iff p a b ha hb w).mp hroot
      exact ⟨h2.2, hw, h2.1⟩
    · rintro ⟨hwa, hw, hroot⟩
      exact ⟨hw, (isRoot_set_iff p a b ha hb w).mpr ⟨hroot, hwa⟩⟩
  rw [hfe, Finset.card_erase_of_mem hmem]
  have hpos : 0 <
      ((Finset.range p.length).filter (fun i => parentOf p i = i)).card :=
    Finset.card_pos.mpr ⟨a, hmem⟩
  omega

lemma link_spec (p : List Nat) (hin : inRange p)
    (hrooted : ∀ i, i < p.length → ∃ r, Reaches p i r)
    (A B : Nat) (hA : A < p.length) (hB : B < p.length)
    (hrA : isRoot p A) (hrB : isRoot p B) (hBA : B ≠ A) :
    inRange (p.set A B) ∧
    (∀ i, i < (p.set A B).length → ∃ r, Reaches (p.set A B) i r) ∧
    (∀ i j, sameClass p i j → sameClass (p.set A B) i j) ∧
    (∀ i, Reaches p i A → Reaches (p.set A B) i B) ∧
    (∀ i z, Reaches p i z → z ≠ A → Reaches (p.set A B) i z) ∧
    countRepsP (p.set A B) + 1 = countRepsP p := by
  have hlink := reaches_link_iff p A B hA hrA hrB hBA
  have hToB : ∀ i, Reaches p i A → Reaches (p.set A B) i B := by
    intro i hi
    exact (hlink i B).mpr (Or.inr ⟨hi, rfl⟩)
  have hKeep : ∀ i z, Reaches p i z → z ≠ A → Reaches (p.set A B) i z := by
    intro i z hi hz
    exact (hlink i z).mpr (Or.inl ⟨hi, hz⟩)
  refine ⟨?_, ?_, ?_, hToB, hKeep, ?_⟩
  · intro i hilen
    rw [List.length_set] at hilen
    show parentOf _ i < _
    rw [List.length_set]
    by_cases hia : i = A
    · rw [hia]
      rw [parentOf_set_self p A B hA]
      exact hB
    · rw [parentOf_set_ne p A B i (fun h => hia h.symm)]
      exact hin i hilen
  · intro i hilen
    rw [List.length_set] at hilen
    obtain ⟨z, hz⟩ := hrooted i hilen
    by_cases hzA : z = A
    · rw [hzA] at hz
      exact ⟨B, hToB i hz⟩
    · exact ⟨z, hKeep i z hz hzA⟩
  · rintro i j ⟨z, hzi, hzj⟩
    by_cases hzA : z = A
    · rw [hzA] at hzi hzj
      exact ⟨B, hToB i hzi, hToB j hzj⟩
    · exact ⟨z, hKeep i z hzi hzA, hKeep j z hzj hzA⟩
  · exact countRepsP_set p A B hA hrA hBA

lemma union_eq_self (u : UnionFind) (x : Nat) : u.union x x = (u, .ok false) := by
  unfold UnionFind.union
  rw [if_pos rfl]

lemma union_eq_err_left (u u1 : UnionFind) (x y : Nat) (e : UFError)
    (hxy : x ≠ y) (h1 : u.find_mut x = (u1, .error e)) :
    u.union x y = (u1, .error e) := by
  unfold UnionFind.union
  simp only [if_neg hxy, h1]

lemma union_eq_err_right (u u1 u1' : UnionFind) (x y r1 : Nat) (e : UFError)
    (hxy : x ≠ y) (h1 : u.find_mut x = (u1, .ok r1))
    (h2 : u1.find_mut y = (u1', .error e)) :
    u.union x y = (u1', .error e) := by
  unfold UnionFind.union
  simp only [if_neg hxy, h1, h2]

lemma union_eq_ok (u u1 u2 : UnionFind) (x y r1 r2 : Nat)
    (hxy : x ≠ y)
    (h1 : u.find_mut x = (u1, .ok r1))
    (h2 : u1.find_mut y = (u2, .ok r2)) :
    u.union x y =
      (if r1 = r2 then (u2, .ok false)
       else if u2.rank.getD r1 0 < u2.rank.getD r2 0 then
         (⟨u2.parent.set r1 r2, u2.rank⟩, .ok true)
       else if u2.rank.getD r1 0 > u2.rank.getD r2 0 then
         (⟨u2.parent.set r2 r1, u2.rank⟩, .ok true)
       else (⟨u2.parent.set r2 r1, u2.rank.set r1 (u2.rank.getD r1 0 + 1)⟩,
         .ok true)) := by
  unfold UnionFind.union
  simp only [if_neg hxy, h1, h2]

lemma find_mut_err (u : UnionFind) (x : Nat) (hx : ¬ x < u.parent.length) :
    u.find_mut x = (u, .error .indexOutOfRange) := by
  unfold UnionFind.find_mut
  rw [if_neg hx]

lemma union_spec (u : UnionFind) (hwf : WF u) (x y : Nat) :
    WF (u.union x y).fst ∧
    (u.union x y).fst.parent.length = u.parent.length ∧
    (∀ i j, sameClass u.parent i j → sameClass (u.union x y).fst.parent i j) ∧
    ((u.union x y).snd = .ok true → sameClass (u.union x y).fst.parent x y) ∧
    ((u.union x y).snd = .ok true →
      countReps (u.union x y).fst + 1 = countReps u) ∧
    ((u.union x y).snd ≠ .ok true →
      countReps (u.union x y).fst = countReps u) := by
  by_cases hxy : x = y
  · rw [hxy, union_eq_self u y]
    refine ⟨hwf, rfl, fun i j h => h, ?_, ?_, fun _ => rfl⟩
    · intro h
      simp at h
    · intro h
      simp at h
  by_cases hx : x < u.parent.length
  case neg =>
    rw [union_eq_err_left u u x y .indexOutOfRange hxy (find_mut_err u x hx)]
    refine ⟨hwf, rfl, fun i j h => h, ?_, ?_, fun _ => rfl⟩
    · intro h
      simp at h
    · intro h
      simp at h
  case pos =>
  obtain ⟨u1, r1, hfm1, hlen1, hrk1, hreach1, hr1lt, hpx1, hpath1, hiff1,
    hroots1, hwf1⟩ := find_mut_spec u hwf x hx
  have hcount1 : countReps u1 = countReps u :=
    countRepsP_congr u1.parent u.parent hlen1 hroots1
  by_cases hy : y < u1.parent.length
  case neg =>
    rw [union_eq_err_right u u1 u1 x y r1 .indexOutOfRange hxy hfm1
      (find_mut_err u1 y hy)]
    refine ⟨hwf1, hlen1, ?_, ?_, ?_, fun _ => hcount1⟩
    · intro i j ⟨z, hzi, hzj⟩
      exact ⟨z, (hiff1 i z).mpr hzi, (hiff1 j z).mpr hzj⟩
    · intro h
      simp at h
    · intro h
      simp at h
  case pos =>
  obtain ⟨u2, r2, hfm2, hlen2, hrk2, hreach2, hr2lt, hpx2, hpath2, hiff2,
    hroots2, hwf2⟩ := find_mut_spec u1 hwf1 y hy
  have hcount2 : countReps u2 = countReps u := by
    unfold countReps at hcount1 ⊢
    rw [countRepsP_congr u2.parent u1.parent hlen2 hroots2]
    exact hcount1
  have hlen21 : u2.parent.length = u.parent.length := by
    rw [hlen2, hlen1]
  have hsame2 : ∀ i j, sameClass u.parent i j → sameClass u2.parent i j := by
    intro i j ⟨z, hzi, hzj⟩
    exact ⟨z, (hiff2 i z).mpr ((hiff1 i z).mpr hzi),
      (hiff2 j z).mpr ((hiff1 j z).mpr hzj)⟩
  have hr1root2 : isRoot u2.parent r1 :=
    (hroots2 r1).mpr ((hroots1 r1).mpr hreach1.2)
  have hr2root2 : isRoot u2.parent r2 := (hroots2 r2).mpr hreach2.2
  have hreach2x : Reaches u2.parent x r1 :=
    (hiff2 x r1).mpr ((hiff1 x r1).mpr hreach1)
  have hreach2y : Reaches u2.parent y r2 := (hiff2 y r2).mpr hreach2
  have hr1lt2 : r1 < u2.parent.length := by
    rw [hlen21]
    exact hr1lt
  have hr2lt2 : r2 < u2.parent.length := by
    rw [hlen2]
    exact hr2lt
  have hrklen2 : u2.rank.length = u2.parent.length := hwf2.1
  rw [union_eq_ok u u1 u2 x y r1 r2 hxy hfm1 hfm2]
  by_cases hrr : r1 = r2
  · rw [if_pos hrr]
    refine ⟨hwf2, hlen21, hsame2, ?_, ?_, fun _ => hcount2⟩
    · intro h
      simp at h
    · intro h
      simp at h
  rw [if_neg hrr]
  by_cases hlt : u2.rank.getD r1 0 < u2.rank.getD r2 0
  · rw [if_pos hlt]
    obtain ⟨hin3, hrooted3, hsame3, hToB, hKeep, hcount3⟩ :=
      link_spec u2.parent hwf2.2.1 hwf2.2.2 r1 r2 hr1lt2 hr2lt2 hr1root2
        hr2root2 (fun h => hrr h.symm)
    refine ⟨⟨?_, hin3, hrooted3⟩, ?_, ?_, ?_, ?_, ?_⟩
    · show u2.rank.length = (u2.parent.set r1 r2).length
      rw [List.length_set]
      exact hrklen2
    · show (u2.parent.set r1 r2).length = _
      rw [List.length_set]
      exact hlen21
    · intro i j h
      exact hsame3 i j (hsame2 i j h)
    · intro _
      exact ⟨r2, hToB x hreach2x, hKeep y r2 hreach2y (fun h => hrr h.symm)⟩
    · intro _
      show countRepsP (u2.parent.set r1 r2) + 1 = _
      rw [hcount3]
      exact hcount2
    · intro h
      exact absurd rfl h
  rw [if_neg hlt]
  have hr12 : r2 ≠ r1 := fun h => hrr h.symm
  obtain ⟨hin3, hrooted3, hsame3, hToB, hKeep, hcount3⟩ :=
    link_spec u2.parent hwf2.2.1 hwf2.2.2 r2 r1 hr2lt2 hr1lt2 hr2root2
      hr1root2 hrr
  have hwf3 : ∀ rk : List Nat, rk.length = u2.rank.length →
      WF ⟨u2.parent.set r2 r1, rk⟩ := by
    intro rk hrklen
    refine ⟨?_, hin3, hrooted3⟩
    show rk.length = (u2.parent.set r2 r1).length
    rw [List.length_set, hrklen]
    exact hrklen2
  have hsameAll : ∀ i j, sameClass u.parent i j →
      sameClass (u2.parent.set r2 r1) i j :=
    fun i j h => hsame3 i j (hsame2 i j h)
  have hsameXY : sameClass (u2.parent.set r2 r1) x y :=
    ⟨r1, hKeep x r1 hreach2x hrr, hToB y hreach2y⟩
  have hcountAll : countRepsP (u2.parent.set r2 r1) + 1 = countReps u := by
    rw [hcount3]
    exact hcount2
  by_cases hgt : u2.rank.getD r1 0 > u2.rank.getD r2 0
  · rw [if_pos hgt]
    exact ⟨hwf3 u2.rank rfl, by
        show (u2.parent.set r2 r1).length = _
        rw [List.length_set]
        exact hlen21,
      hsameAll, fun _ => hsameXY, fun _ => hcountAll, fun h => absurd rfl h⟩
  · rw [if_neg hgt]
    exact ⟨hwf3 (u2.rank.set r1 (u2.rank.getD r1 0 + 1)) (List.length_set _ _ _),
      by
        show (u2.parent.set r2 r1).length = _
        rw [List.length_set]
        exact hlen21,
      hsameAll, fun _ => hsameXY, fun _ => hcountAll, fun h => absurd rfl h⟩

lemma pushParents_length : ∀ (c i : Nat), (pushParents c i).length = c := by
  intro c
  induction c with
  | zero => intro i; rfl
  | succ c ih =>
    intro i
    show (pushParents c (i + 1)).length + 1 = c + 1
    rw [ih]

lemma pushParents_getD : ∀ (c i j : Nat), j < c →
    (pushParents c i).getD j 0 = i + 1 + j := by
  intro c
  induction c with
  | zero => intro i j hj; omega
  | succ c ih =>
    intro i j hj
    cases j with
    | zero => rfl
    | succ j' =>
      show (pushParents c (i + 1)).getD j' 0 = _
      rw [ih (i + 1) j' (by omega)]
      omega

lemma new_parent_length (n : Nat) : (UnionFind.new n).parent.length = n := by
  unfold UnionFind.new
  by_cases hn : n = 0
  · rw [hn]
    rfl
  · show (if n = 0 then [] else 0 :: pushParents (n - 1) 0).length = n
    rw [if_neg hn]
    show (pushParents (n - 1) 0).length + 1 = n
    rw [pushParents_length]
    omega

lemma new_parentOf (n i : Nat) (hi : i < n) :
    parentOf (UnionFind.new n).parent i = i := by
  unfold UnionFind.new parentOf
  show (if n = 0 then ([] : List Nat) else 0 :: pushParents (n - 1) 0).getD i 0 = i
  rw [if_neg (by omega)]
  cases i with
  | zero => rfl
  | succ i' =>
    show (pushParents (n - 1) 0).getD i' 0 = i' + 1
    rw [pushParents_getD (n - 1) 0 i' (by omega)]
    omega

lemma new_rank_length (n : Nat) : (UnionFind.new n).rank.length = n := by
  unfold UnionFind.new
  exact List.length_replicate n 0

lemma new_rank_getD (n i : Nat) :
    (UnionFind.new n).rank.getD i 0 = 0 := by
  unfold UnionFind.new
  show (List.replicate n 0).getD i 0 = 0
  by_cases hi : i < n
  · rw [List.getD_eq_getElem _ _ (by simpa using hi)]
    exact List.getElem_replicate _ _
  · exact getD_eq_default _ i (by simpa using Nat.le_of_not_lt hi)

lemma wf_new (n : Nat) : WF (UnionFind.new n) := by
  refine ⟨?_, ?_, ?_⟩
  · rw [new_rank_length, new_parent_length]
  · intro i hi
    rw [new_parent_length] at hi
    rw [new_parent_length, new_parentOf n i hi]
    exact hi
  · intro i hi
    rw [new_parent_length] at hi
    exact ⟨i, reaches_self _ i (new_parentOf n i hi)⟩

lemma countReps_new (n : Nat) : countReps (UnionFind.new n) = n := by
  unfold countReps countRepsP
  rw [new_parent_length]
  have hfe : (Finset.range n).filter
      (fun i => parentOf (UnionFind.new n).parent i = i) = Finset.range n := by
    apply Finset.filter_true_of_mem
    intro i hi
    exact new_parentOf n i (Finset.mem_range.mp hi)
  rw [hfe, Finset.card_range]

lemma pushParentsK_agree : ∀ (w c i : Nat), i + c < 2 ^ w →
    pushParentsK w c i = pushParents c i := by
  intro w c
  induction c with
  | zero => intro i _; rfl
  | succ c ih =>
    intro i hc
    show ((i + 1) % 2 ^ w) :: pushParentsK w c ((i + 1) % 2 ^ w) =
      (i + 1) :: pushParents c (i + 1)
    have hmod : (i + 1) % 2 ^ w = i + 1 := Nat.mod_eq_of_lt (by omega)
    rw [hmod, ih (i + 1) (by omega)]

lemma newParentK_agree (w n : Nat) (hn : n ≤ 2 ^ w) :
    newParentK w n = (UnionFind.new n).parent := by
  unfold newParentK UnionFind.new
  by_cases h0 : n = 0
  · rw [if_pos h0, if_pos h0]
  · show _ = (if n = 0 then [] else 0 :: pushParents (n - 1) 0)
    rw [if_neg h0, if_neg h0]
    have hpow : 0 < 2 ^ w := Nat.pos_pow_of_pos w (by omega)
    rw [pushParentsK_agree w (n - 1) 0 (by omega)]

lemma applyOp_spec (u : UnionFind) (hwf : WF u) (o : Op) :
    WF (u.applyOp o) ∧
    (u.applyOp o).parent.length = u.parent.length ∧
    (∀ i j, sameClass u.parent i j → sameClass (u.applyOp o).parent i j) := by
  cases o with
  | find z => exact ⟨hwf, rfl, fun i j h => h⟩
  | find_mut z =>
    by_cases hz : z < u.parent.length
    · obtain ⟨u', r, hfm, hlen, _, _, _, _, _, hiff, _, hwf'⟩ :=
        find_mut_spec u hwf z hz
      have hstep : u.applyOp (Op.find_mut z) = u' := by
        show (u.find_mut z).fst = u'
        rw [hfm]
      rw [hstep]
      refine ⟨hwf', hlen, ?_⟩
      rintro i j ⟨w, hwi, hwj⟩
      exact ⟨w, (hiff i w).mpr hwi, (hiff j w).mpr hwj⟩
    · have hstep : u.applyOp (Op.find_mut z) = u := by
        show (u.find_mut z).fst = u
        rw [find_mut_err u z hz]
      rw [hstep]
      exact ⟨hwf, rfl, fun i j h => h⟩
  | union a b =>
    obtain ⟨h1, h2, h3, _, _, _⟩ := union_spec u hwf a b
    exact ⟨h1, h2, h3⟩

lemma applyOps_spec (ops : List Op) : ∀ (u : UnionFind), WF u →
    WF (u.applyOps ops) ∧
    (u.applyOps ops).parent.length = u.parent.length ∧
    (∀ i j, sameClass u.parent i j →
      sameClass (u.applyOps ops).parent i j) := by
  induction ops with
  | nil => exact fun u hwf => ⟨hwf, rfl, fun i j h => h⟩
  | cons o os ih =>
    intro u hwf
    obtain ⟨hw1, hl1, hs1⟩ := applyOp_spec u hwf o
    obtain ⟨hw2, hl2, hs2⟩ := ih (u.applyOp o) hw1
    exact ⟨hw2, hl2.trans hl1, fun i j h => hs2 i j (hs1 i j h)⟩

lemma applyUnions_spec (ps : List (Nat × Nat)) : ∀ (u : UnionFind), WF u →
    countReps (u.applyUnions ps).fst + (u.applyUnions ps).snd = countReps u := by
  induction ps with
  | nil =>
    intro u _
    show countReps u + 0 = countReps u
    omega
  | cons xy rest ih =>
    intro u hwf
    obtain ⟨hw1, _, _, _, hc_true, hc_false⟩ := union_spec u hwf xy.1 xy.2
    have hunf : u.applyUnions (xy :: rest) =
        (((u.union xy.1 xy.2).fst.applyUnions rest).fst,
          (if (u.union xy.1 xy.2).snd = .ok true then 1 else 0) +
            ((u.union xy.1 xy.2).fst.applyUnions rest).snd) := rfl
    rw [hunf]
    have ihr := ih (u.union xy.1 xy.2).fst hw1
    by_cases hb : (u.union xy.1 xy.2).snd = .ok true
    · rw [if_pos hb]
      have hc := hc_true hb
      dsimp only
      omega
    · rw [if_neg hb]
      have hc := hc_false hb
      dsimp only
      omega

/-- Claim C4: starting from `new(n)` and applying any sequence of `union`
operations with in-range arguments, the number of distinct representatives
(indices `i` with `parent[i] == i`) equals `n` minus the number of those
union calls that returned `true`. -/
theorem spec_c4 : ∀ (n : Nat) (ps : List (Nat × Nat)),
    (∀ xy ∈ ps, xy.1 < n ∧ xy.2 < n) →
    countReps ((UnionFind.new n).applyUnions ps).fst =
      n - ((UnionFind.new n).applyUnions ps).snd ∧
    countReps ((UnionFind.new n).applyUnions ps).fst +
      ((UnionFind.new n).applyUnions ps).snd = n := by
  intro n ps _hin
  have h := applyUnions_spec ps (UnionFind.new n) (wf_new n)
  rw [countReps_new n] at h
  omega

/-- Witness for C4 at a concrete run: three unions on `new(3)`, two of
which merge, leaving `3 - 2 = 1` representative. -/
theorem spec_c4_witness :
    countReps ((UnionFind.new 3).applyUnions [(0, 1), (1, 2), (0, 2)]).fst =
      3 - ((UnionFind.new 3).applyUnions [(0, 1), (1, 2), (0, 2)]).snd :=
  (spec_c4 3 [(0, 1), (1, 2), (0, 2)] (by decide)).1

/-- Claim C5: on a well-formed structure, `find(x)` for in-range `x`
returns the representative of x's class — the unique element reached from
`x` by following parent links that stores its own index.  The embedding of
`find` takes no state and returns none (the source takes `&self`), so it
mutates neither `parent` nor `rank` by construction. -/
theorem spec_c5 : ∀ (u : UnionFind) (x : Nat), WF u → x < u.size →
    ∃ r, u.find x = .ok r ∧ isRoot u.parent r ∧
      (∃ k, iterParent u.parent k x = r) ∧
      (∀ r', isRoot u.parent r' →
        (∃ k, iterParent u.parent k x = r') → r' = r) := by
  intro u x hwf hx
  obtain ⟨r, hfind, hreach⟩ := find_spec u hwf x hx
  refine ⟨r, hfind, hreach.2, hreach.1, ?_⟩
  intro r' hr' hk'
  exact reaches_unique u.parent x r' r ⟨hk', hr'⟩ hreach

/-- Witness for C5 on a fresh structure of size 2 at `x = 1`. -/
theorem spec_c5_witness :
    ∃ r, (UnionFind.new 2).find 1 = .ok r ∧
      isRoot (UnionFind.new 2).parent r ∧
      (∃ k, iterParent (UnionFind.new 2).parent k 1 = r) ∧
      (∀ r', isRoot (UnionFind.new 2).parent r' →
        (∃ k, iterParent (UnionFind.new 2).parent k 1 = r') → r' = r) :=
  spec_c5 (UnionFind.new 2) 1 (wf_new 2) (by decide)

/-- Claim C8: `union(x, x)` returns `false` with no structural change: the
state (both `parent` and `rank`) is returned exactly as it was, and the
fast path precedes every lookup and bounds check (so this holds even for
out-of-range `x`). -/
theorem spec_c8 : ∀ (u : UnionFind) (x : Nat),
    u.union x x = (u, .ok false) := by
  intro u x
  exact union_eq_self u x

/-- Claim C9: for every `n` within the index type's range `2 ^ w`
(including `n = 0` and `n = 2 ^ w`, e.g. 256 with an 8-bit index), `new(n)`
builds `parent` and `rank` of length exactly `n` with `parent[i] = i` and
`rank[i] = 0`; the construction loop, carried out in arithmetic modulo
`2 ^ w`, never wraps — it agrees exactly with the ideal construction. -/
theorem spec_c9 : ∀ (w n : Nat), n ≤ 2 ^ w →
    (newParentK w n).length = n ∧
    (∀ i, i < n → (newParentK w n).getD i 0 = i) ∧
    (UnionFind.new n).rank.length = n ∧
    (∀ i, i < n → (UnionFind.new n).rank.getD i 0 = 0) ∧
    newParentK w n = (UnionFind.new n).parent := by
  intro w n hn
  have hagree := newParentK_agree w n hn
  refine ⟨?_, ?_, new_rank_length n, fun i _ => new_rank_getD n i, hagree⟩
  · rw [hagree]
    exact new_parent_length n
  · intro i hi
    rw [hagree]
    exact new_parentOf n i hi

/-- Witness for C9 at the full 8-bit range `n = 256 = 2 ^ 8`. -/
theorem spec_c9_witness :
    (newParentK 8 256).length = 256 ∧
    newParentK 8 256 = (UnionFind.new 256).parent :=
  ⟨(spec_c9 8 256 (by decide)).1, (spec_c9 8 256 (by decide)).2.2.2.2⟩

/-- Claim C10: `find_mut` preserves the partition: after `find_mut(x)` on a
well-formed structure, `find(i) == find(j)` holds exactly when it held
before, for all in-range `i`, `j`, and the set of representatives (indices
`r` with `parent[r] == r`) is unchanged. -/
theorem spec_c10 : ∀ (u : UnionFind) (x : Nat), WF u → x < u.size →
    (∀ i j, i < u.size → j < u.size →
      ((u.find_mut x).fst.find i = (u.find_mut x).fst.find j ↔
        u.find i = u.find j)) ∧
    (∀ r, r < u.size →
      (isRoot (u.find_mut x).fst.parent r ↔ isRoot u.parent r)) := by
  intro u x hwf hx
  obtain ⟨u', r, hfm, hlen, _, _, _, _, _, hiff, hroots, hwf'⟩ :=
    find_mut_spec u hwf x hx
  have hfst : (u.find_mut x).fst = u' := by
    rw [hfm]
  rw [hfst]
  constructor
  · intro i j hi hj
    rw [find_eq_iff u' hwf' i j (by rw [hlen]; exact hi) (by rw [hlen]; exact hj),
      find_eq_iff u hwf i j hi hj]
    constructor
    · rintro ⟨z, hzi, hzj⟩
      exact ⟨z, (hiff i z).mp hzi, (hiff j z).mp hzj⟩
    · rintro ⟨z, hzi, hzj⟩
      exact ⟨z, (hiff i z).mpr hzi, (hiff j z).mpr hzj⟩
  · intro r' _
    exact hroots r'

/-- Witness for C10: compressing lookup on element 0 of a fresh structure
of size 2 leaves element 1 a representative exactly as before. -/
theorem spec_c10_witness :
    isRoot ((UnionFind.new 2).find_mut 0).fst.parent 1 ↔
      isRoot (UnionFind.new 2).parent 1 :=
  (spec_c10 (UnionFind.new 2) 0 (wf_new 2) (by decide)).2 1 (by decide)

/-- Claim C2: on a well-formed structure, `find_mut(x)` for in-range `x`
returns the representative `r` of x's class (the unique chain-terminal
element), afterwards `parent[x] == r` directly and every node visited on
the original path from `x` to `r` has its parent rewritten to `r` (full
path compression), while the `rank` array is left entirely unchanged. -/
theorem spec_c2 : ∀ (u : UnionFind) (x : Nat), WF u → x < u.size →
    ∃ u' r, u.find_mut x = (u', .ok r) ∧
      Reaches u.parent x r ∧
      (∀ r', Reaches u.parent x r' → r' = r) ∧
      parentOf u'.parent x = r ∧
      (∀ k, iterParent u.parent k x ≠ r →
        parentOf u'.parent (iterParent u.parent k x) = r) ∧
      u'.rank = u.rank := by
  intro u x hwf hx
  obtain ⟨u', r, hfm, _, hrk, hreach, _, hpx, hpath, _, _, _⟩ :=
    find_mut_spec u hwf x hx
  refine ⟨u', r, hfm, hreach, ?_, hpx, hpath, hrk⟩
  intro r' hr'
  exact reaches_unique u.parent x r' r hr' hreach

/-- Witness for C2 on a fresh structure of size 2 at `x = 0`. -/
theorem spec_c2_witness :
    ∃ u' r, (UnionFind.new 2).find_mut 0 = (u', .ok r) ∧
      Reaches (UnionFind.new 2).parent 0 r ∧
      (∀ r', Reaches (UnionFind.new 2).parent 0 r' → r' = r) ∧
      parentOf u'.parent 0 = r ∧
      (∀ k, iterParent (UnionFind.new 2).parent k 0 ≠ r →
        parentOf u'.parent (iterParent (UnionFind.new 2).parent k 0) = r) ∧
      u'.rank = (UnionFind.new 2).rank :=
  spec_c2 (UnionFind.new 2) 0 (wf_new 2) (by decide)

/-- Claim C3: merging is monotonic.  On a well-formed structure, once
`find(x) == find(y)` holds for in-range `x`, `y`, it continues to hold
after every subsequent sequence of `find`, `find_mut` and `union`
operations; and after `union(x, y)` returns `true`, `find(x) == find(y)`
holds and keeps holding after every further operation sequence. -/
theorem spec_c3 : ∀ (u : UnionFind) (x y : Nat), WF u →
    x < u.size → y < u.size →
    (∀ ops : List Op, u.find x = u.find y →
      (u.applyOps ops).find x = (u.applyOps ops).find y) ∧
    ((u.union x y).snd = .ok true →
      ∀ ops : List Op,
        ((u.union x y).fst.applyOps ops).find x =
          ((u.union x y).fst.applyOps ops).find y) := by
  intro u x y hwf hx hy
  constructor
  · intro ops h
    have hsc := (find_eq_iff u hwf x y hx hy).mp h
    obtain ⟨hwf', hlen', hpres⟩ := applyOps_spec ops u hwf
    exact (find_eq_iff _ hwf' x y (by rw [hlen']; exact hx)
      (by rw [hlen']; exact hy)).mpr (hpres x y hsc)
  · intro htrue ops
    obtain ⟨hwfU, hlenU, _, hscU, _, _⟩ := union_spec u hwf x y
    obtain ⟨hwf', hlen', hpres⟩ := applyOps_spec ops (u.union x y).fst hwfU
    exact (find_eq_iff _ hwf' x y (by rw [hlen', hlenU]; exact hx)
      (by rw [hlen', hlenU]; exact hy)).mpr (hpres x y (hscU htrue))

/-- Witness for C3: after `union(0,1)` on `new(2)` returns `true`, the two
elements keep a common representative after a further compressing lookup. -/
theorem spec_c3_witness :
    (((UnionFind.new 2).union 0 1).fst.applyOps [Op.find_mut 1]).find 0 =
      (((UnionFind.new 2).union 0 1).fst.applyOps [Op.find_mut 1]).find 1 :=
  (spec_c3 (UnionFind.new 2) 0 1 (wf_new 2) (by decide) (by decide)).2
    (by decide) [Op.find_mut 1]

/-- Claim C1: on a well-formed structure, for in-range `x ≠ y` whose
representatives `rx`, `ry` are distinct, `union(x, y)` links by rank: if
`rank[rx] < rank[ry]` then `parent[rx]` is set to `ry` (ranks unchanged);
if `rank[rx] > rank[ry]` then `parent[ry]` is set to `rx` (ranks
unchanged); on equal ranks `parent[ry]` is set to `rx` and `rank[rx]` is
incremented by one (x-side representative wins ties); and `union` returns
`true`.  Concretely, on a fresh structure of size 2, `union(0,1)` returns
`true` and leaves `0` as the representative (`find(0) == 0`) with rank 1. -/
theorem spec_c1 :
    (∀ (u : UnionFind) (x y rx ry : Nat), WF u →
      x < u.size → y < u.size → x ≠ y →
      Reaches u.parent x rx → Reaches u.parent y ry → rx ≠ ry →
      (u.union x y).snd = .ok true ∧
      (u.rank.getD rx 0 < u.rank.getD ry 0 →
        parentOf (u.union x y).fst.parent rx = ry ∧
        (u.union x y).fst.rank = u.rank) ∧
      (u.rank.getD ry 0 < u.rank.getD rx 0 →
        parentOf (u.union x y).fst.parent ry = rx ∧
        (u.union x y).fst.rank = u.rank) ∧
      (u.rank.getD rx 0 = u.rank.getD ry 0 →
        parentOf (u.union x y).fst.parent ry = rx ∧
        (u.union x y).fst.rank.getD rx 0 = u.rank.getD rx 0 + 1)) ∧
    ((UnionFind.new 2).union 0 1).snd = .ok true ∧
    ((UnionFind.new 2).union 0 1).fst.find 0 = .ok 0 ∧
    ((UnionFind.new 2).union 0 1).fst.rank.getD 0 0 = 1 := by
  refine ⟨?_, rfl, rfl, rfl⟩
  intro u x y rx ry hwf hx hy hxy hrx hry hrxy
  obtain ⟨u1, r1, hfm1, hlen1, hrk1, hreach1, hr1lt, _, _, hiff1, _, hwf1⟩ :=
    find_mut_spec u hwf x hx
  have hr1 : r1 = rx := reaches_unique u.parent x r1 rx hreach1 hrx
  rw [hr1] at hfm1
  have hy1 : y < u1.parent.length := by
    rw [hlen1]
    exact hy
  obtain ⟨u2, r2, hfm2, hlen2, hrk2, hreach2, hr2lt, _, _, hiff2, _, hwf2⟩ :=
    find_mut_spec u1 hwf1 y hy1
  have hr2 : r2 = ry :=
    reaches_unique u1.parent y r2 ry hreach2 ((hiff1 y ry).mpr hry)
  rw [hr2] at hfm2
  have hrkeq : u2.rank = u.rank := by
    rw [hrk2, hrk1]
  have hrxlt2 : rx < u2.parent.length := by
    rw [hlen2, hlen1]
    rw [hr1] at hr1lt
    exact hr1lt
  have hrylt2 : ry < u2.parent.length := by
    rw [hlen2]
    rw [hr2] at hr2lt
    exact hr2lt
  have hrxrk2 : rx < u2.rank.length := by
    rw [hwf2.1]
    exact hrxlt2
  rw [union_eq_ok u u1 u2 x y rx ry hxy hfm1 hfm2, if_neg hrxy, hrkeq]
  have hrxrku : rx < u.rank.length := by
    rw [hwf.1]
    rw [hr1] at hr1lt
    exact hr1lt
  by_cases hlt : u.rank.getD rx 0 < u.rank.getD ry 0
  · rw [if_pos hlt]
    refine ⟨rfl, fun _ => ⟨?_, rfl⟩, fun h => absurd hlt (by omega),
      fun h => absurd hlt (by omega)⟩
    exact parentOf_set_self u2.parent rx ry hrxlt2
  · rw [if_neg hlt]
    by_cases hgt : u.rank.getD rx 0 > u.rank.getD ry 0
    · rw [if_pos hgt]
      refine ⟨rfl, fun h => absurd hgt (by omega), fun _ => ⟨?_, rfl⟩,
        fun h => absurd hgt (by omega)⟩
      exact parentOf_set_self u2.parent ry rx hrylt2
    · rw [if_neg hgt]
      refine ⟨rfl, fun h => absurd h (by omega), fun h => absurd h (by omega),
        fun _ => ⟨?_, ?_⟩⟩
      · exact parentOf_set_self u2.parent ry rx hrylt2
      · show (u.rank.set rx (u.rank.getD rx 0 + 1)).getD rx 0 =
          u.rank.getD rx 0 + 1
        exact getD_set_self u.rank rx (u.rank.getD rx 0 + 1) hrxrku

/-- Witness for C1 on a fresh structure of size 2: both representatives
have rank 0, so the equal-rank tie-break applies and the x-side rank is
incremented. -/
theorem spec_c1_witness :
    ((UnionFind.new 2).union 0 1).snd = .ok true ∧
    ((UnionFind.new 2).union 0 1).fst.rank.getD 0 0 =
      (UnionFind.new 2).rank.getD 0 0 + 1 :=
  ⟨(spec_c1.1 (UnionFind.new 2) 0 1 0 1 (wf_new 2) (by decide) (by decide)
      (by decide) ⟨⟨0, rfl⟩, by decide⟩ ⟨⟨0, rfl⟩, by decide⟩ (by decide)).1,
    ((spec_c1.1 (UnionFind.new 2) 0 1 0 1 (wf_new 2) (by decide) (by decide)
      (by decide) ⟨⟨0, rfl⟩, by decide⟩ ⟨⟨0, rfl⟩, by decide⟩
      (by decide)).2.2.2 (by decide)).2⟩

lemma find_mut_recursive_length (p : List Nat) :
    ∀ (fuel x : Nat), (find_mut_recursive p fuel x).fst.length = p.length := by
  intro fuel
  induction fuel with
  | zero => intro x; rfl
  | succ fuel ih =>
    intro x
    have hunf : find_mut_recursive p (fuel + 1) x =
        if parentOf p x = x then (p, x)
        else ((find_mut_recursive p fuel (parentOf p x)).fst.set x
                (find_mut_recursive p fuel (parentOf p x)).snd,
              (find_mut_recursive p fuel (parentOf p x)).snd) := rfl
    rw [hunf]
    by_cases hpx : parentOf p x = x
    · rw [if_pos hpx]
    · rw [if_neg hpx]
      show ((find_mut_recursive p fuel (parentOf p x)).fst.set x _).length = _
      rw [List.length_set]
      exact ih (parentOf p x)

lemma find_mut_ok (u : UnionFind) (x : Nat) (hx : x < u.parent.length) :
    u.find_mut x =
      (⟨(find_mut_recursive u.parent u.parent.length x).fst, u.rank⟩,
        .ok (find_mut_recursive u.parent u.parent.length x).snd) := by
  unfold UnionFind.find_mut
  rw [if_pos hx]

lemma find_mut_fst_length (u : UnionFind) (x : Nat) :
    (u.find_mut x).fst.parent.length = u.parent.length := by
  by_cases hx : x < u.parent.length
  · rw [find_mut_ok u x hx]
    exact find_mut_recursive_length u.parent u.parent.length x
  · rw [find_mut_err u x hx]

/-- Counterexample to C6 as stated: on the size-4 structure reached by
`union(1,0); union(2,3); union(2,1)` (where element 0 sits at depth 2),
`union(0, 4)` does fail with the index error, but the path compression
performed by `find_mut(0)` has already rewritten `parent` before the
failure — the state is NOT unchanged. -/
theorem spec_c6_cex :
    (((((UnionFind.new 4).union 1 0).fst.union 2 3).fst.union 2 1).fst.union 0 4).snd
      = .error .indexOutOfRange ∧
    (((((UnionFind.new 4).union 1 0).fst.union 2 3).fst.union 2 1).fst.union 0 4).fst
      ≠ ((((UnionFind.new 4).union 1 0).fst.union 2 3).fst.union 2 1).fst := by
  exact ⟨rfl, by decide⟩

/-- Claim C6 as amended: `find(n)` and `find_mut(n)` on a structure of size
`n` fail with the index error and leave the state unchanged; `union(0, n)`
fails for `n ≥ 1`, but its state at the failure is the one produced by the
preceding `find_mut(0)` (whose path compression may have mutated `parent`);
for `n = 0`, `union(0, 0)` hits the `x == y` fast path and returns `false`
without failing. -/
theorem spec_c6_amended : ∀ (u : UnionFind) (n : Nat), u.size = n →
    u.find n = .error .indexOutOfRange ∧
    u.find_mut n = (u, .error .indexOutOfRange) ∧
    (1 ≤ n → (u.union 0 n).snd = .error .indexOutOfRange ∧
      (u.union 0 n).fst = (u.find_mut 0).fst) ∧
    (n = 0 → u.union 0 n = (u, .ok false)) := by
  intro u n hn
  unfold UnionFind.size at hn
  have hnlt : ¬ n < u.parent.length := by omega
  refine ⟨?_, find_mut_err u n hnlt, ?_, ?_⟩
  · unfold UnionFind.find
    rw [if_neg hnlt]
  · intro hn1
    have h0 : (0 : Nat) ≠ n := by omega
    have h0lt : 0 < u.parent.length := by omega
    have hfm := find_mut_ok u 0 h0lt
    have hnlt1 : ¬ n <
        (⟨(find_mut_recursive u.parent u.parent.length 0).fst, u.rank⟩ :
          UnionFind).parent.length := by
      show ¬ n < (find_mut_recursive u.parent u.parent.length 0).fst.length
      rw [find_mut_recursive_length]
      exact hnlt
    have herr := find_mut_err _ n hnlt1
    have huni := union_eq_err_right u _ _ 0 n _ .indexOutOfRange h0 hfm herr
    constructor
    · rw [huni]
    · rw [huni, hfm]
  · intro h0
    rw [h0]
    exact union_eq_self u 0

/-- Witness for the amended C6 on a fresh structure of size 3. -/
theorem spec_c6_amended_witness :
    (UnionFind.new 3).find 3 = .error .indexOutOfRange ∧
    ((UnionFind.new 3).union 0 3).snd = .error .indexOutOfRange :=
  ⟨(spec_c6_amended (UnionFind.new 3) 3 rfl).1,
    ((spec_c6_amended (UnionFind.new 3) 3 rfl).2.2.1 (by decide)).1⟩

/-- Counterexample to C7 as stated: `union(5, 5)` on a structure of size 1
returns `false` through the `x == y` fast path instead of failing, even
though both arguments are out of range. -/
theorem spec_c7_cex :
    ((UnionFind.new 1).union 5 5).snd = .ok false ∧
    ((UnionFind.new 1).union 5 5).snd ≠ .error .indexOutOfRange ∧
    ((UnionFind.new 1).union 5 5).fst = UnionFind.new 1 :=
  ⟨rfl, by decide, rfl⟩

/-- Claim C7 as amended: `find` and `find_mut` fail with the (single) index
error for every index `≥ n`; `union(x, y)` fails whenever `x ≠ y` and
either argument is `≥ n` (for `x = y` the fast path returns `false` with no
check); and for in-range indices no operation fails, whatever the current
state. -/
theorem spec_c7_amended : ∀ (u : UnionFind) (x y : Nat),
    (u.size ≤ x → u.find x = .error .indexOutOfRange) ∧
    (u.size ≤ x → u.find_mut x = (u, .error .indexOutOfRange)) ∧
    (x ≠ y → u.size ≤ x ∨ u.size ≤ y →
      (u.union x y).snd = .error .indexOutOfRange) ∧
    (x < u.size → ∃ r, u.find x = .ok r) ∧
    (x < u.size → ∃ u' r, u.find_mut x = (u', .ok r)) ∧
    (x < u.size → y < u.size → ∃ u' b, u.union x y = (u', .ok b)) := by
  intro u x y
  refine ⟨?_, ?_, ?_, ?_, ?_, ?_⟩
  · intro h
    unfold UnionFind.size at h
    unfold UnionFind.find
    rw [if_neg (by omega)]
  · intro h
    unfold UnionFind.size at h
    exact find_mut_err u x (by omega)
  · intro hxy hor
    by_cases hx : x < u.parent.length
    · have hy : ¬ y < u.parent.length := by
        unfold UnionFind.size at hor
        rcases hor with h | h
        · omega
        · omega
      have hfm := find_mut_ok u x hx
      have hy1 : ¬ y <
          (⟨(find_mut_recursive u.parent u.parent.length x).fst, u.rank⟩ :
            UnionFind).parent.length := by
        show ¬ y < (find_mut_recursive u.parent u.parent.length x).fst.length
        rw [find_mut_recursive_length]
        exact hy
      have herr := find_mut_err _ y hy1
      rw [union_eq_err_right u _ _ x y _ .indexOutOfRange hxy hfm herr]
    · rw [union_eq_err_left u u x y .indexOutOfRange hxy (find_mut_err u x hx)]
  · intro hx
    have hx' : x < u.parent.length := hx
    unfold UnionFind.find
    rw [if_pos hx']
    exact ⟨_, rfl⟩
  · intro hx
    rw [find_mut_ok u x hx]
    exact ⟨_, _, rfl⟩
  · intro hx hy
    by_cases hxy : x = y
    · rw [hxy, union_eq_self u y]
      exact ⟨u, false, rfl⟩
    · obtain ⟨u1, r1, hfm1⟩ : ∃ u1 r1, u.find_mut x = (u1, .ok r1) := by
        rw [find_mut_ok u x hx]
        exact ⟨_, _, rfl⟩
      have hy1 : y < u1.parent.length := by
        have hl := find_mut_fst_length u x
        rw [hfm1] at hl
        show y < u1.parent.length
        rw [show u1.parent.length = u.parent.length from hl]
        exact hy
      obtain ⟨u2, r2, hfm2⟩ : ∃ u2 r2, u1.find_mut y = (u2, .ok r2) := by
        rw [find_mut_ok u1 y hy1]
        exact ⟨_, _, rfl⟩
      rw [union_eq_ok u u1 u2 x y r1 r2 hxy hfm1 hfm2]
      by_cases h12 : r1 = r2
      · rw [if_pos h12]
        exact ⟨u2, false, rfl⟩
      · rw [if_neg h12]
        by_cases hlt : u2.rank.getD r1 0 < u2.rank.getD r2 0
        · rw [if_pos hlt]
          exact ⟨_, true, rfl⟩
        · rw [if_neg hlt]
          by_cases hgt : u2.rank.getD r1 0 > u2.rank.getD r2 0
          · rw [if_pos hgt]
            exact ⟨_, true, rfl⟩
          · rw [if_neg hgt]
            exact ⟨_, true, rfl⟩

/-- Witness for the amended C7 on a fresh structure of size 2. -/
theorem spec_c7_amended_witness :
    (UnionFind.new 2).find 5 = .error .indexOutOfRange ∧
    ((UnionFind.new 2).union 0 5).snd = .error .indexOutOfRange :=
  ⟨(spec_c7_amended (UnionFind.new 2) 5 0).1 (by decide),
    (spec_c7_amended (UnionFind.new 2) 0 5).2.2.1 (by decide)
      (Or.inr (by decide))⟩
